import Mathlib

/-!
Verification of the Maestro workflow engine (`src/workflow.py`):
`Workflow._process_steps`, `Workflow._condition` and `Workflow.process_event`.

The engine is embedded shallowly:

* A step definition (`StepDef`) mirrors the dictionaries stored in
  `workflow["spec"]["template"]["steps"]`: a `name`, an `agent` field that is
  either absent, an unresolved agent-name string, or a resolved agent object
  (identified opaquely by a string), an optional `inputs` list of
  `{from: key}` records and an optional `context` list of literal strings or
  `{from: key}` records.
* The shared mutable context `self._context` is an association list with the
  most recent binding first (`ctxSet` prepends, `ctxGet` takes the first hit),
  which models Python dict update/lookup for the keys the engine touches.
* `Step.run` (class `Step`, module `src.step`, together with the agent
  backends it wraps) is external to the engine; it is modelled as an oracle
  `Oracle : Nat → String → List String → Option (List String) → StepResult`
  mapping the invocation index, the step name, the positional arguments and
  the optional resolved context list to the step's result mapping.
* Python exceptions become constructors of `WfErr`; the `while True:` loop of
  `_process_steps` becomes the fuel-indexed `stepLoop`, where running out of
  fuel is reported as `LoopOut.fuelOut` (the Python loop simply has not
  returned yet at that point).
* `process_event` likewise becomes the fuel-indexed `processEvent`; the cron
  matcher `pycron.is_now` and the exit evaluator `eval_expression` (both
  external collaborators) are parameters indexed by iteration, and the
  side effects of a run (agent invocation, step-subset tick, exit-expression
  evaluation, `time.sleep(30)`) are recorded in an event trace, newest first.
-/

namespace Maestro

/-- A step result: the mapping returned by `Step.run`.  The engine only reads
the keys `"prompt"` and `"next"`, so the embedding keeps exactly those, each
`Option` because the key may be absent. -/
structure StepResult where
  prompt : Option String
  next : Option String
deriving DecidableEq, Repr

/-- Python truthiness of `result.get("next")`: the key must be present and the
value must be a non-empty string for the `if result.get("next"):` branch of
`_process_steps` to be taken. -/
def StepResult.truthyNext (r : StepResult) : Option String :=
  match r.next with
  | some s => if s == "" then none else some s
  | none => none

/-- The `agent` field of a step definition: absent, an unresolved agent-name
string (what `isinstance(step_def.get("agent"), str)` tests), or a resolved
agent object (opaque, identified by a string). -/
inductive AgentField where
  | absent : AgentField
  | str : String → AgentField
  | obj : String → AgentField
deriving DecidableEq, Repr

/-- One `{from: <context-key>}` record of a step's `inputs` list. -/
structure InputRef where
  fromKey : String
deriving DecidableEq, Repr

/-- One entry of a step's `context` list: either a literal string or a
`{from: <context-key>}` record. -/
inductive CtxItem where
  | lit : String → CtxItem
  | keyRef : String → CtxItem
deriving DecidableEq, Repr

/-- A step definition from `workflow["spec"]["template"]["steps"]`, restricted
to the fields `_process_steps` reads. -/
structure StepDef where
  name : String
  agent : AgentField
  inputs : Option (List InputRef)
  context : Option (List CtxItem)
deriving DecidableEq, Repr

/-- A step definition with only a name: no agent string to resolve, no
`inputs`, no `context`. -/
def plainStep (n : String) : StepDef :=
  ⟨n, .absent, none, none⟩

/-- The shared execution context `self._context`: an association list from
keys (step names plus the reserved key `"prompt"`) to values, most recent
binding first. -/
abbrev Ctx := List (String × String)

/-- Dict lookup `self._context[k]` / `self._context.get(k)`. -/
def ctxGet (ctx : Ctx) (k : String) : Option String :=
  match ctx.find? (fun e => e.1 == k) with
  | some e => some e.2
  | none => none

/-- Dict membership `k in self._context`. -/
def ctxHas (ctx : Ctx) (k : String) : Bool :=
  ctx.any (fun e => e.1 == k)

/-- Dict update `self._context[k] = v`. -/
def ctxSet (ctx : Ctx) (k v : String) : Ctx :=
  (k, v) :: ctx

/-- The exceptions the engine raises, with the data the Python message
interpolates.  `agentNotFound` and `missingInput`/`missingContext`/
`noPromptKey` are the engine's own `RuntimeError`s; `stepNotFound` covers both
the `StopIteration` of `next(s for s in steps if s["name"] == current_step)`
and the `ValueError` of `find_index`/`get_step`; `promptKeyError` is the
`KeyError` of `self._context["prompt"]`; `emptySteps` is the `IndexError` of
`steps[0]` in `_condition`. -/
inductive WfErr where
  | agentNotFound (agentName stepName : String)
  | stepNotFound (stepName : String)
  | missingInput (stepName key : String)
  | missingContext (stepName key : String)
  | noPromptKey (stepName : String)
  | promptKeyError
  | emptySteps
deriving DecidableEq, Repr

/-- One recorded invocation of `self.steps[current_step].run(*args)` resp.
`run(*args, context=ctx)`: the step name, the positional arguments, the
`context` keyword argument (`none` when the step declares no `context`), and
the result the call returned. -/
structure Inv where
  step : String
  args : List String
  ctxArg : Option (List String)
  res : StepResult
deriving DecidableEq, Repr

/-- The behaviour of `Step.run` (external to the engine), as a function of the
number of invocations made so far in the run, the step name, the positional
arguments and the resolved context argument. -/
abbrev Oracle := Nat → String → List String → Option (List String) → StepResult

/-- Lines 158-166 of `_process_steps`: resolve the declared `inputs` of a step
against the context, raising on the first `{from: key}` whose key is absent.
(Dict membership and dict lookup coincide: `k in d` iff `d[k]` succeeds.) -/
def resolveInputs (stepName : String) (inps : List InputRef) (ctx : Ctx) :
    Except WfErr (List String) :=
  match inps with
  | [] => .ok []
  | inp :: rest =>
    match ctxGet ctx inp.fromKey with
    | none => .error (.missingInput stepName inp.fromKey)
    | some v =>
      match resolveInputs stepName rest ctx with
      | .ok args => .ok (v :: args)
      | .error e => .error e

/-- Lines 170-181 of `_process_steps`: resolve the declared `context` entries,
passing literal strings through and looking `{from: key}` entries up in the
context, raising on the first absent key. -/
def resolveCtx (stepName : String) (items : List CtxItem) (ctx : Ctx) :
    Except WfErr (List String) :=
  match items with
  | [] => .ok []
  | .lit s :: rest =>
    match resolveCtx stepName rest ctx with
    | .ok l => .ok (s :: l)
    | .error e => .error e
  | .keyRef k :: rest =>
    match ctxGet ctx k with
    | none => .error (.missingContext stepName k)
    | some v =>
      match resolveCtx stepName rest ctx with
      | .ok l => .ok (v :: l)
      | .error e => .error e

/-- The positional arguments of the call: the resolved `inputs` when the step
declares some, otherwise the single argument `self._context["prompt"]`. -/
def resolveArgs (sd : StepDef) (stepName : String) (ctx : Ctx) :
    Except WfErr (List String) :=
  match sd.inputs with
  | some inps => resolveInputs stepName inps ctx
  | none =>
    match ctxGet ctx "prompt" with
    | some p => .ok [p]
    | none => .error .promptKeyError

/-- The `context` keyword argument of the call: `none` when the step declares
no `context` (Python passes no keyword), otherwise the resolved list. -/
def resolveCtxArg (sd : StepDef) (stepName : String) (ctx : Ctx) :
    Except WfErr (Option (List String)) :=
  match sd.context with
  | some items =>
    match resolveCtx stepName items ctx with
    | .ok l => .ok (some l)
    | .error e => .error e
  | none => .ok none

/-- `find_index` followed by the last-step test (lines 200-203): the name of
the structurally next step, `none` when the current step is the last one. -/
def nextInOrder (steps : List StepDef) (current : String) :
    Except WfErr (Option String) :=
  match steps.findIdx? (fun s => s.name == current) with
  | none => .error (.stepNotFound current)
  | some idx =>
    match steps[idx + 1]? with
    | none => .ok none
    | some sd => .ok (some sd.name)

/-- How the `while True:` loop of `_process_steps` ended: normal `break`
(after which `{"final_prompt": context["prompt"]}` is returned), a raised
exception, or fuel exhaustion (the Python loop is still running). -/
inductive LoopOut where
  | done : LoopOut
  | err : WfErr → LoopOut
  | fuelOut : LoopOut
deriving DecidableEq, Repr

/-- The state the loop finished in: the invocations made (newest first), the
context, and how it ended. -/
structure LoopState where
  trace : List Inv
  ctx : Ctx
  out : LoopOut
deriving DecidableEq, Repr

/-- The `while True:` loop of `_process_steps` (lines 156-203), fuel-indexed.
Each iteration looks the current step up by name, resolves its arguments and
context, invokes the step through the oracle, requires a `"prompt"` key in the
result, records the new prompt under both the step's name and `"prompt"`, and
transfers control: to `result["next"]` when that is truthy, otherwise to the
structurally next step, breaking when the current step is the last. -/
def stepLoop (run : Oracle) (steps : List StepDef) :
    Nat → String → Ctx → List Inv → LoopState
  | 0, _, ctx, tr => ⟨tr, ctx, .fuelOut⟩
  | fuel + 1, current, ctx, tr =>
    match steps.find? (fun s => s.name == current) with
    | none => ⟨tr, ctx, .err (.stepNotFound current)⟩
    | some sd =>
      match resolveArgs sd current ctx with
      | .error e => ⟨tr, ctx, .err e⟩
      | .ok args =>
        match resolveCtxArg sd current ctx with
        | .error e => ⟨tr, ctx, .err e⟩
        | .ok ctxArg =>
          let result := run tr.length current args ctxArg
          let tr1 := ⟨current, args, ctxArg, result⟩ :: tr
          match result.prompt with
          | none => ⟨tr1, ctx, .err (.noPromptKey current)⟩
          | some p =>
            let ctx1 := ctxSet (ctxSet ctx current p) "prompt" p
            match result.truthyNext with
            | some target => stepLoop run steps fuel target ctx1 tr1
            | none =>
              match nextInOrder steps current with
              | .error e => ⟨tr1, ctx1, .err e⟩
              | .ok none => ⟨tr1, ctx1, .done⟩
              | .ok (some nextName) => stepLoop run steps fuel nextName ctx1 tr1

/-- Lines 143-151 of `_process_steps`: walk the step list, destructively
replacing each string-valued `agent` field by the object `self.agents` maps it
to, raising `RuntimeError` at the first agent name the map lacks.  Returns the
list as it stands when the walk ends (on error the already-walked prefix is
mutated, the rest untouched), and the error if one was raised. -/
def resolveAgents (agents : String → Option String) :
    List StepDef → List StepDef × Option WfErr
  | [] => ([], none)
  | sd :: rest =>
    match sd.agent with
    | .str s =>
      match agents s with
      | none => (sd :: rest, some (.agentNotFound s sd.name))
      | some a =>
        let res := resolveAgents agents rest
        ({ sd with agent := .obj a } :: res.1, res.2)
    | _ =>
      let res := resolveAgents agents rest
      (sd :: res.1, res.2)

/-- The outcome of one `_process_steps` call: the step list after the in-place
agent resolution, the invocation trace (newest first), the final context, and
how the loop ended. -/
structure RunResult where
  steps : List StepDef
  trace : List Inv
  ctx : Ctx
  out : LoopOut
deriving DecidableEq, Repr

/-- `Workflow._process_steps(steps, start_step, initial_prompt)`: reset the
context to `{"prompt": initial_prompt}` (line 141), resolve the agent fields
in place, then run the traversal loop from `start_step`. -/
def processSteps (agents : String → Option String) (run : Oracle) (fuel : Nat)
    (steps : List StepDef) (startStep initialPrompt : String) : RunResult :=
  let ctx0 : Ctx := [("prompt", initialPrompt)]
  match resolveAgents agents steps with
  | (steps1, some e) => ⟨steps1, [], ctx0, .err e⟩
  | (steps1, none) =>
    let ls := stepLoop run steps1 fuel startStep ctx0 []
    ⟨steps1, ls.trace, ls.ctx, ls.out⟩

/-- The value of `step_results["final_prompt"]` (line 205):
`self._context["prompt"]` at the end of the loop. -/
def RunResult.finalPrompt (r : RunResult) : Option String :=
  ctxGet r.ctx "prompt"

/-- `Workflow._condition()`: run `_process_steps` over the template's steps,
starting at `steps[0]["name"]`, with the template's prompt. -/
def condition (agents : String → Option String) (run : Oracle) (fuel : Nat)
    (steps : List StepDef) (prompt : String) : RunResult :=
  match steps with
  | [] => ⟨[], [], [], .err .emptySteps⟩
  | s0 :: _ => processSteps agents run fuel steps s0.name prompt

/-- Python truthiness of `tpl['event'].get('agent')`: present and a non-empty
string. -/
def truthyOptStr : Option String → Bool
  | none => false
  | some s => s != ""

/-- `Workflow.get_step(step_name)`: linear scan of the template's steps,
`ValueError` when the name is absent. -/
def getStep (steps : List StepDef) (name : String) : Except WfErr StepDef :=
  match steps.find? (fun s => s.name == name) with
  | some s => .ok s
  | none => .error (.stepNotFound name)

/-- `[self.get_step(n) for n in step_names]` (line 221). -/
def getEventSteps (steps : List StepDef) : List String → Except WfErr (List StepDef)
  | [] => .ok []
  | n :: rest =>
    match getStep steps n with
    | .error e => .error e
    | .ok sd =>
      match getEventSteps steps rest with
      | .error e => .error e
      | .ok tail =>  .ok (sd :: tail)

/-- Observable events of one `process_event` run, recorded newest first:
the first-run agent invocation, a cron tick that re-ran the step subset, an
evaluation of the exit expression against the current prompt, and
`time.sleep(30)`. -/
inductive EvEvent where
  | agentCall (input output : String)
  | ticked (prompt : String)
  | exitEval (prompt : String) (value : Bool)
  | sleep
deriving DecidableEq, Repr

/-- How `process_event` ended: returned a prompt, an exception propagated out
of a tick, or fuel ran out (the Python loop is still running). -/
inductive EvOut where
  | done : String → EvOut
  | err : WfErr → EvOut
  | fuelOut : EvOut
deriving DecidableEq, Repr

/-- Final state of a `process_event` run: the event trace (newest first) and
how the loop ended. -/
structure EvState where
  trace : List EvEvent
  out : EvOut
deriving DecidableEq, Repr

/-- Result of the cron-gated part of one `process_event` iteration. -/
inductive TickOut where
  | ok : String → TickOut
  | fail : WfErr → TickOut
  | fuelOut : TickOut
deriving DecidableEq, Repr

/-- State after the cron-gated part of one iteration: outcome, the `first_run`
flag, and the event trace. -/
structure TickResult where
  out : TickOut
  firstRun : Bool
  trace : List EvEvent
deriving DecidableEq, Repr

/-- Lines 217-224 of `process_event`: one iteration's cron-gated work.  When
the cron expression matches now: on the first matching iteration, if an event
agent is (truthily) named, run it and adopt its output as the prompt; then, if
`step_names` is (truthily) non-empty, look the named steps up and re-run
`_process_steps` over just that subset starting at the first named step,
adopting its `final_prompt` (`out.get("final_prompt", prompt)`); finally clear
`first_run`.  When the cron does not match, nothing happens. -/
def evTick (cron : Nat → Bool) (agentName : Option String)
    (agentRun : String → String) (stepNames : List String)
    (agents : String → Option String) (tplSteps : List StepDef)
    (oracle : Nat → Oracle) (stepFuel : Nat)
    (iter : Nat) (prompt : String) (firstRun : Bool) (tr : List EvEvent) :
    TickResult :=
  if cron iter then
    let hadAgent := firstRun && truthyOptStr agentName
    let p1 := if hadAgent then agentRun prompt else prompt
    let tr1 := if hadAgent then EvEvent.agentCall prompt (agentRun prompt) :: tr else tr
    match stepNames with
    | [] => ⟨.ok p1, false, tr1⟩
    | n0 :: _ =>
      match getEventSteps tplSteps stepNames with
      | .error e => ⟨.fail e, false, tr1⟩
      | .ok evSteps =>
        let r := processSteps agents (oracle iter) stepFuel evSteps n0 p1
        match r.out with
        | .done =>
          let p2 := r.finalPrompt.getD p1
          ⟨.ok p2, false, EvEvent.ticked p2 :: tr1⟩
        | .err e => ⟨.fail e, false, tr1⟩
        | .fuelOut => ⟨.fuelOut, false, tr1⟩
  else ⟨.ok prompt, firstRun, tr⟩

/-- `Workflow.process_event(prompt)` (lines 208-230), fuel-indexed: on each
iteration run the cron-gated work, then evaluate the exit expression against
the current prompt — break and return the prompt when it is true, otherwise
`time.sleep(30)` and iterate. -/
def processEvent (cron : Nat → Bool) (exitExpr : String → Bool)
    (agentName : Option String) (agentRun : String → String)
    (stepNames : List String) (agents : String → Option String)
    (tplSteps : List StepDef) (oracle : Nat → Oracle) (stepFuel : Nat) :
    Nat → String → Bool → Nat → List EvEvent → EvState
  | 0, _, _, _, tr => ⟨tr, .fuelOut⟩
  | fuel + 1, prompt, firstRun, iter, tr =>
    let t := evTick cron agentName agentRun stepNames agents tplSteps oracle
      stepFuel iter prompt firstRun tr
    match t.out with
    | .fail e => ⟨t.trace, .err e⟩
    | .fuelOut => ⟨t.trace, .fuelOut⟩
    | .ok p =>
      if exitExpr p then
        ⟨EvEvent.exitEval p true :: t.trace, .done p⟩
      else
        processEvent cron exitExpr agentName agentRun stepNames agents tplSteps
          oracle stepFuel fuel p t.firstRun (iter + 1)
          (EvEvent.sleep :: EvEvent.exitEval p false :: t.trace)

/-! ## Claims -/

/-- C2, as stated, is false: a step result whose `next` is `"end"` (with no
step named `"end"`) does not terminate the traversal normally.  Concretely,
with the single step `s1` whose result is `{"prompt": "p", "next": "end"}`,
`_process_steps` transfers control to `"end"`, looks it up like any other step
name, fails, and raises — the run does not end in `LoopOut.done`. -/
theorem c2_end_sentinel_counterexample :
    (processSteps (fun _ => none) (fun _ _ _ _ => ⟨some "p", some "end"⟩) 2
      [plainStep "s1"] "s1" "go").out = .err (.stepNotFound "end") ∧
    (processSteps (fun _ => none) (fun _ _ _ _ => ⟨some "p", some "end"⟩) 2
      [plainStep "s1"] "s1" "go").out ≠ .done := by
  constructor
  · rfl
  · decide

/-- C2 (amended): the engine gives the value `"end"` of `next` no sentinel
treatment.  Whenever control is transferred to the name `"end"` in a workflow
none of whose steps is named `"end"`, the very next iteration of the
`_process_steps` loop fails to look the step up and raises a step-lookup
error naming `"end"`; the traversal does not return a `final_prompt`
normally. -/
theorem c2_end_sentinel_amended (run : Oracle) (steps : List StepDef)
    (fuel : Nat) (ctx : Ctx) (tr : List Inv)
    (h : ∀ sd ∈ steps, sd.name ≠ "end") :
    stepLoop run steps (fuel + 1) "end" ctx tr =
      ⟨tr, ctx, .err (.stepNotFound "end")⟩ := by
  have hfind : steps.find? (fun s => s.name == "end") = none := by
    rw [List.find?_eq_none]
    intro sd hsd
    simpa using h sd hsd
  simp [stepLoop, hfind]

/-- Witness for `c2_end_sentinel_amended` at a concrete workflow. -/
theorem c2_end_sentinel_amended_witness :
    stepLoop (fun _ _ _ _ => ⟨some "p", some "end"⟩) [plainStep "s1"]
      1 "end" [("prompt", "go")] [] =
      ⟨[], [("prompt", "go")], .err (.stepNotFound "end")⟩ :=
  c2_end_sentinel_amended (fun _ _ _ _ => ⟨some "p", some "end"⟩)
    [plainStep "s1"] 0 [("prompt", "go")] [] (by decide)

/-- C1: for a workflow of three steps (distinct names, no `inputs`, no
`context`, nothing to resolve in the `agent` fields) whose results carry no
`next`, `_condition()` with initial prompt `"Start"` invokes `s1` with
`"Start"`, `s2` with `s1`'s result prompt, `s3` with `s2`'s result prompt, and
returns `{"final_prompt": s3's result prompt}`. -/
theorem c1_sequential_propagation
    (agents : String → Option String) (run : Oracle)
    (n1 n2 n3 p1 p2 p3 : String)
    (hne12 : n1 ≠ n2) (hne13 : n1 ≠ n3) (hne23 : n2 ≠ n3)
    (h1 : run 0 n1 ["Start"] none = ⟨some p1, none⟩)
    (h2 : run 1 n2 [p1] none = ⟨some p2, none⟩)
    (h3 : run 2 n3 [p2] none = ⟨some p3, none⟩) :
    (condition agents run 3 [plainStep n1, plainStep n2, plainStep n3]
        "Start").out = .done ∧
    (condition agents run 3 [plainStep n1, plainStep n2, plainStep n3]
        "Start").finalPrompt = some p3 ∧
    (condition agents run 3 [plainStep n1, plainStep n2, plainStep n3]
        "Start").trace.reverse.map (fun i => (i.step, i.args)) =
      [(n1, ["Start"]), (n2, [p1]), (n3, [p2])] := by
  have b12 : (n1 == n2) = false := beq_eq_false_iff_ne.mpr hne12
  have b13 : (n1 == n3) = false := beq_eq_false_iff_ne.mpr hne13
  have b23 : (n2 == n3) = false := beq_eq_false_iff_ne.mpr hne23
  simp [condition, processSteps, resolveAgents, plainStep, stepLoop,
    resolveArgs, resolveCtxArg, ctxGet, ctxSet, nextInOrder, h1, h2, h3,
    StepResult.truthyNext, b12, b13, b23, RunResult.finalPrompt,
    List.find?, List.findIdx?]

/-- Witness for `c1_sequential_propagation` at a concrete workflow and
oracle. -/
theorem c1_sequential_propagation_witness :
    (condition (fun _ => none) (fun _ n _ _ => ⟨some ("out-" ++ n), none⟩) 3
        [plainStep "s1", plainStep "s2", plainStep "s3"] "Start").out = .done ∧
    (condition (fun _ => none) (fun _ n _ _ => ⟨some ("out-" ++ n), none⟩) 3
        [plainStep "s1", plainStep "s2", plainStep "s3"]
        "Start").finalPrompt = some "out-s3" ∧
    (condition (fun _ => none) (fun _ n _ _ => ⟨some ("out-" ++ n), none⟩) 3
        [plainStep "s1", plainStep "s2", plainStep "s3"]
        "Start").trace.reverse.map (fun i => (i.step, i.args)) =
      [("s1", ["Start"]), ("s2", ["out-s1"]), ("s3", ["out-s2"])] :=
  c1_sequential_propagation (fun _ => none)
    (fun _ n _ _ => ⟨some ("out-" ++ n), none⟩)
    "s1" "s2" "s3" "out-s1" "out-s2" "out-s3"
    (by decide) (by decide) (by decide) rfl rfl rfl

/-- C3: in a three-step workflow `[s1, s2, s3]`, when `s1`'s result carries
`"next": "s3"` (a non-empty name), the engine jumps straight to `s3`: `s2` is
never invoked, and after the run `context["prompt"]` holds `s3`'s output. -/
theorem c3_next_overrides_order
    (agents : String → Option String) (run : Oracle)
    (n1 n2 n3 p0 p1 p3 : String)
    (hne12 : n1 ≠ n2) (hne13 : n1 ≠ n3) (hne23 : n2 ≠ n3) (hn3 : n3 ≠ "")
    (h1 : run 0 n1 [p0] none = ⟨some p1, some n3⟩)
    (h2 : run 1 n3 [p1] none = ⟨some p3, none⟩) :
    (processSteps agents run 2 [plainStep n1, plainStep n2, plainStep n3]
        n1 p0).out = .done ∧
    ctxGet (processSteps agents run 2 [plainStep n1, plainStep n2, plainStep n3]
        n1 p0).ctx "prompt" = some p3 ∧
    (processSteps agents run 2 [plainStep n1, plainStep n2, plainStep n3]
        n1 p0).trace.map (fun i => i.step) = [n3, n1] ∧
    ∀ i ∈ (processSteps agents run 2 [plainStep n1, plainStep n2, plainStep n3]
        n1 p0).trace, i.step ≠ n2 := by
  have b12 : (n1 == n2) = false := beq_eq_false_iff_ne.mpr hne12
  have b13 : (n1 == n3) = false := beq_eq_false_iff_ne.mpr hne13
  have b23 : (n2 == n3) = false := beq_eq_false_iff_ne.mpr hne23
  have bn3 : (n3 == "") = false := beq_eq_false_iff_ne.mpr hn3
  simp [processSteps, resolveAgents, plainStep, stepLoop, resolveArgs,
    resolveCtxArg, ctxGet, ctxSet, nextInOrder, h1, h2,
    StepResult.truthyNext, b12, b13, b23, bn3, List.find?]
  exact ⟨fun h => hne23 h.symm, hne12⟩

/-- Witness for `c3_next_overrides_order` at a concrete workflow and
oracle. -/
theorem c3_next_overrides_order_witness :
    (processSteps (fun _ => none)
        (fun i n _ _ => if i == 0 then ⟨some "p1", some "s3"⟩
          else ⟨some ("out-" ++ n), none⟩) 2
        [plainStep "s1", plainStep "s2", plainStep "s3"] "s1" "go").out
      = .done ∧
    ctxGet (processSteps (fun _ => none)
        (fun i n _ _ => if i == 0 then ⟨some "p1", some "s3"⟩
          else ⟨some ("out-" ++ n), none⟩) 2
        [plainStep "s1", plainStep "s2", plainStep "s3"] "s1" "go").ctx
        "prompt" = some "out-s3" ∧
    (processSteps (fun _ => none)
        (fun i n _ _ => if i == 0 then ⟨some "p1", some "s3"⟩
          else ⟨some ("out-" ++ n), none⟩) 2
        [plainStep "s1", plainStep "s2", plainStep "s3"] "s1" "go").trace.map
        (fun i => i.step) = ["s3", "s1"] ∧
    ∀ i ∈ (processSteps (fun _ => none)
        (fun i n _ _ => if i == 0 then ⟨some "p1", some "s3"⟩
          else ⟨some ("out-" ++ n), none⟩) 2
        [plainStep "s1", plainStep "s2", plainStep "s3"] "s1" "go").trace,
      i.step ≠ "s2" :=
  c3_next_overrides_order (fun _ => none)
    (fun i n _ _ => if i == 0 then ⟨some "p1", some "s3"⟩
      else ⟨some ("out-" ++ n), none⟩)
    "s1" "s2" "s3" "go" "p1" "out-s3"
    (by decide) (by decide) (by decide) (by decide) rfl rfl

/-- C4: a step declaring `inputs: [{from: s1}]` is passed exactly the value
stored under `context[s1]`, not `context["prompt"]`: in the workflow
`[s1, s2, s3]` where `s3` declares `inputs: [{from: n1}]`, step `s2` has
already overwritten `context["prompt"]` with its own output `p2 ≠ p1`, yet
`s3` is invoked with argument list `[p1]` — `s1`'s recorded output — and not
`[p2]`. -/
theorem c4_named_input_binding
    (agents : String → Option String) (run : Oracle)
    (n1 n2 n3 p0 p1 p2 p3 : String)
    (hne12 : n1 ≠ n2) (hne13 : n1 ≠ n3) (hne23 : n2 ≠ n3)
    (hprompt : n1 ≠ "prompt") (hdiff : p1 ≠ p2)
    (h1 : run 0 n1 [p0] none = ⟨some p1, none⟩)
    (h2 : run 1 n2 [p1] none = ⟨some p2, none⟩)
    (h3 : run 2 n3 [p1] none = ⟨some p3, none⟩) :
    (processSteps agents run 3
        [plainStep n1, plainStep n2, ⟨n3, .absent, some [⟨n1⟩], none⟩]
        n1 p0).out = .done ∧
    (processSteps agents run 3
        [plainStep n1, plainStep n2, ⟨n3, .absent, some [⟨n1⟩], none⟩]
        n1 p0).trace.reverse.map (fun i => (i.step, i.args)) =
      [(n1, [p0]), (n2, [p1]), (n3, [p1])] ∧
    [p1] ≠ [p2] := by
  have b12 : (n1 == n2) = false := beq_eq_false_iff_ne.mpr hne12
  have b13 : (n1 == n3) = false := beq_eq_false_iff_ne.mpr hne13
  have b23 : (n2 == n3) = false := beq_eq_false_iff_ne.mpr hne23
  have bp : ("prompt" == n1) = false :=
    beq_eq_false_iff_ne.mpr (fun h => hprompt h.symm)
  have b21 : (n2 == n1) = false :=
    beq_eq_false_iff_ne.mpr (fun h => hne12 h.symm)
  have b11 : (n1 == n1) = true := beq_self_eq_true n1
  refine ⟨?_, ?_, by simpa using hdiff⟩ <;>
    simp [processSteps, resolveAgents, plainStep, stepLoop, resolveArgs,
      resolveCtxArg, resolveInputs, ctxGet, ctxSet, nextInOrder, h1, h2, h3,
      StepResult.truthyNext, b12, b13, b23, bp, b21, b11, List.find?]

/-- Witness for `c4_named_input_binding` at a concrete workflow and
oracle. -/
theorem c4_named_input_binding_witness :
    (processSteps (fun _ => none)
        (fun i _ _ _ => if i == 0 then ⟨some "p1", none⟩
          else if i == 1 then ⟨some "p2", none⟩ else ⟨some "p3", none⟩) 3
        [plainStep "s1", plainStep "s2", ⟨"s3", .absent, some [⟨"s1"⟩], none⟩]
        "s1" "go").out = .done ∧
    (processSteps (fun _ => none)
        (fun i _ _ _ => if i == 0 then ⟨some "p1", none⟩
          else if i == 1 then ⟨some "p2", none⟩ else ⟨some "p3", none⟩) 3
        [plainStep "s1", plainStep "s2", ⟨"s3", .absent, some [⟨"s1"⟩], none⟩]
        "s1" "go").trace.reverse.map (fun i => (i.step, i.args)) =
      [("s1", ["go"]), ("s2", ["p1"]), ("s3", ["p1"])] ∧
    ["p1"] ≠ ["p2"] :=
  c4_named_input_binding (fun _ => none)
    (fun i _ _ _ => if i == 0 then ⟨some "p1", none⟩
      else if i == 1 then ⟨some "p2", none⟩ else ⟨some "p3", none⟩)
    "s1" "s2" "s3" "go" "p1" "p2" "p3"
    (by decide) (by decide) (by decide) (by decide) (by decide) rfl rfl rfl

/-- C5: whenever the current step's invocation returns a result without a
`"prompt"` key, the very same iteration of the `_process_steps` loop raises a
`RuntimeError` naming that step; the offending invocation is the only one
added to the trace — no subsequent step is invoked — and the context is left
as it was. -/
theorem c5_missing_prompt_fatal
    (run : Oracle) (steps : List StepDef) (fuel : Nat) (current : String)
    (ctx : Ctx) (tr : List Inv) (sd : StepDef) (args : List String)
    (ctxArg : Option (List String))
    (hfind : steps.find? (fun s => s.name == current) = some sd)
    (hargs : resolveArgs sd current ctx = .ok args)
    (hctx : resolveCtxArg sd current ctx = .ok ctxArg)
    (hres : (run tr.length current args ctxArg).prompt = none) :
    stepLoop run steps (fuel + 1) current ctx tr =
      ⟨⟨current, args, ctxArg, run tr.length current args ctxArg⟩ :: tr, ctx,
        .err (.noPromptKey current)⟩ := by
  simp [stepLoop, hfind, hargs, hctx, hres]

/-- Witness for `c5_missing_prompt_fatal` at a concrete workflow and
oracle. -/
theorem c5_missing_prompt_fatal_witness :
    stepLoop (fun _ _ _ _ => ⟨none, none⟩) [plainStep "s1", plainStep "s2"]
      3 "s1" [("prompt", "go")] [] =
      ⟨[⟨"s1", ["go"], none, ⟨none, none⟩⟩], [("prompt", "go")],
        .err (.noPromptKey "s1")⟩ :=
  c5_missing_prompt_fatal (fun _ _ _ _ => ⟨none, none⟩)
    [plainStep "s1", plainStep "s2"] 2 "s1" [("prompt", "go")] []
    (plainStep "s1") ["go"] none rfl rfl rfl rfl

/-- `resolveInputs` fails exactly as `_process_steps` lines 160-166 do: when
some declared `{from: key}` has no binding in the context, it raises
`missingInput` naming the step and one such absent key (the first one). -/
theorem resolveInputs_missing (stepName : String) (inps : List InputRef)
    (ctx : Ctx) (h : ∃ i ∈ inps, ctxGet ctx i.fromKey = none) :
    ∃ k, ctxGet ctx k = none ∧ (∃ i ∈ inps, i.fromKey = k) ∧
      resolveInputs stepName inps ctx = .error (.missingInput stepName k) := by
  induction inps with
  | nil => simp at h
  | cons a rest ih =>
    by_cases ha : ctxGet ctx a.fromKey = none
    · exact ⟨a.fromKey, ha, ⟨a, by simp, rfl⟩, by simp [resolveInputs, ha]⟩
    · obtain ⟨i, hi, hnone⟩ := h
      rcases List.mem_cons.mp hi with hia | hir
      · exact absurd (hia ▸ hnone) ha
      · obtain ⟨k, hk, ⟨i2, hi2, hik⟩, heq⟩ := ih ⟨i, hir, hnone⟩
        obtain ⟨v, hv⟩ := Option.ne_none_iff_exists'.mp ha
        exact ⟨k, hk, ⟨i2, by simp [hi2], hik⟩,
          by simp [resolveInputs, hv, heq]⟩

/-- `resolveCtx` fails exactly as `_process_steps` lines 172-181 do: when some
declared `{from: key}` context entry has no binding, it raises
`missingContext` naming the step and one such absent key. -/
theorem resolveCtx_missing (stepName : String) (items : List CtxItem)
    (ctx : Ctx) (h : ∃ k0, CtxItem.keyRef k0 ∈ items ∧ ctxGet ctx k0 = none) :
    ∃ k, ctxGet ctx k = none ∧ CtxItem.keyRef k ∈ items ∧
      resolveCtx stepName items ctx = .error (.missingContext stepName k) := by
  induction items with
  | nil => simp at h
  | cons a rest ih =>
    obtain ⟨k0, hk0mem, hk0⟩ := h
    cases a with
    | lit s =>
      have hk0r : CtxItem.keyRef k0 ∈ rest := by
        rcases List.mem_cons.mp hk0mem with hh | hh
        · exact absurd hh (by simp)
        · exact hh
      obtain ⟨k, hk, hkmem, heq⟩ := ih ⟨k0, hk0r, hk0⟩
      exact ⟨k, hk, by simp [hkmem], by simp [resolveCtx, heq]⟩
    | keyRef ka =>
      by_cases ha : ctxGet ctx ka = none
      · exact ⟨ka, ha, by simp, by simp [resolveCtx, ha]⟩
      · have hk0r : CtxItem.keyRef k0 ∈ rest := by
          rcases List.mem_cons.mp hk0mem with hh | hh
          · cases hh
            exact absurd hk0 ha
          · exact hh
        obtain ⟨k, hk, hkmem, heq⟩ := ih ⟨k0, hk0r, hk0⟩
        obtain ⟨v, hv⟩ := Option.ne_none_iff_exists'.mp ha
        exact ⟨k, hk, by simp [hkmem], by simp [resolveCtx, hv, heq]⟩

/-- C6: a step declaring an `inputs` entry `{from: k}` or a `context` entry
`{from: k}` where `k` has no binding in the current context makes the
`_process_steps` loop raise *before* invoking that step's agent (the trace
gains no invocation, the context is untouched), with an error naming the step
and a missing key.  The first conjunct covers `inputs` (checked first), the
second covers `context` entries (checked once the inputs resolved). -/
theorem c6_missing_key_fatal
    (run : Oracle) (steps : List StepDef) (fuel : Nat) (current : String)
    (ctx : Ctx) (tr : List Inv) (sd : StepDef)
    (hfind : steps.find? (fun s => s.name == current) = some sd) :
    (∀ inps, sd.inputs = some inps →
      (∃ i ∈ inps, ctxGet ctx i.fromKey = none) →
      ∃ k, ctxGet ctx k = none ∧ (∃ i ∈ inps, i.fromKey = k) ∧
        stepLoop run steps (fuel + 1) current ctx tr =
          ⟨tr, ctx, .err (.missingInput current k)⟩) ∧
    (∀ items args, sd.context = some items →
      resolveArgs sd current ctx = .ok args →
      (∃ k0, CtxItem.keyRef k0 ∈ items ∧ ctxGet ctx k0 = none) →
      ∃ k, ctxGet ctx k = none ∧ CtxItem.keyRef k ∈ items ∧
        stepLoop run steps (fuel + 1) current ctx tr =
          ⟨tr, ctx, .err (.missingContext current k)⟩) := by
  constructor
  · intro inps hinps hmiss
    obtain ⟨k, hk, hmem, heq⟩ := resolveInputs_missing current inps ctx hmiss
    refine ⟨k, hk, hmem, ?_⟩
    have hargs : resolveArgs sd current ctx = .error (.missingInput current k) := by
      simp [resolveArgs, hinps, heq]
    simp [stepLoop, hfind, hargs]
  · intro items args hitems hargs hmiss
    obtain ⟨k, hk, hmem, heq⟩ := resolveCtx_missing current items ctx hmiss
    refine ⟨k, hk, hmem, ?_⟩
    have hctxa : resolveCtxArg sd current ctx =
        .error (.missingContext current k) := by
      simp [resolveCtxArg, hitems, heq]
    simp [stepLoop, hfind, hargs, hctxa]

/-- Witness for `c6_missing_key_fatal`: an `inputs` entry referencing the
absent key `"k"`, and a `context` entry referencing the absent key `"m"`. -/
theorem c6_missing_key_fatal_witness :
    (∃ k, ctxGet [("prompt", "go")] k = none ∧
      (∃ i ∈ [InputRef.mk "k"], i.fromKey = k) ∧
      stepLoop (fun _ _ _ _ => ⟨some "p", none⟩)
          [⟨"s1", .absent, some [⟨"k"⟩], none⟩] 1 "s1" [("prompt", "go")] [] =
        ⟨[], [("prompt", "go")], .err (.missingInput "s1" k)⟩) ∧
    (∃ k, ctxGet [("prompt", "go")] k = none ∧
      CtxItem.keyRef k ∈ [CtxItem.keyRef "m"] ∧
      stepLoop (fun _ _ _ _ => ⟨some "p", none⟩)
          [⟨"s2", .absent, none, some [.keyRef "m"]⟩] 1 "s2"
          [("prompt", "go")] [] =
        ⟨[], [("prompt", "go")], .err (.missingContext "s2" k)⟩) :=
  ⟨(c6_missing_key_fatal (fun _ _ _ _ => ⟨some "p", none⟩)
      [⟨"s1", .absent, some [⟨"k"⟩], none⟩] 0 "s1" [("prompt", "go")] []
      ⟨"s1", .absent, some [⟨"k"⟩], none⟩ rfl).1 [⟨"k"⟩] rfl
      ⟨⟨"k"⟩, by simp, rfl⟩,
   (c6_missing_key_fatal (fun _ _ _ _ => ⟨some "p", none⟩)
      [⟨"s2", .absent, none, some [.keyRef "m"]⟩] 0 "s2" [("prompt", "go")] []
      ⟨"s2", .absent, none, some [.keyRef "m"]⟩ rfl).2 [.keyRef "m"] ["go"]
      rfl rfl ⟨"m", by simp, rfl⟩⟩

/-- Looking up the key just set returns the value just set. -/
theorem ctxGet_set_self (ctx : Ctx) (k v : String) :
    ctxGet (ctxSet ctx k v) k = some v := by
  simp [ctxGet, ctxSet, List.find?]

/-- Setting one key leaves lookups of other keys unchanged. -/
theorem ctxGet_set_ne (ctx : Ctx) (k k' v : String) (h : k ≠ k') :
    ctxGet (ctxSet ctx k v) k' = ctxGet ctx k' := by
  simp [ctxGet, ctxSet, List.find?, beq_eq_false_iff_ne.mpr h]

/-- The two invariants of the shared context (spec §3, "Shared execution
Context"), phrased over the invocation trace (newest first): after each step
completes, `context["prompt"]` holds the most recently produced result's
`"prompt"` value, and every step name that has executed maps in the context to
its own (most recent) result's `"prompt"` value.  (Invocations whose result
lacked `"prompt"` aborted the run before recording anything, so both clauses
are guarded on the result carrying a prompt.) -/
def ctxInvariant (tr : List Inv) (ctx : Ctx) : Prop :=
  (∀ r rest, tr = r :: rest → ∀ p, r.res.prompt = some p →
    ctxGet ctx "prompt" = some p) ∧
  (∀ r ∈ tr, tr.find? (fun i => i.step == r.step) = some r →
    ∀ p, r.res.prompt = some p → ctxGet ctx r.step = some p)

/-- The empty trace satisfies the invariant over any context. -/
theorem ctxInvariant_nil (ctx : Ctx) : ctxInvariant [] ctx := by
  constructor
  · intro r rest h
    simp at h
  · intro r h
    simp at h

/-- Recording an invocation whose result lacks `"prompt"` (the run aborts on
it) preserves the invariant with the context unchanged. -/
theorem ctxInvariant_cons_none (tr : List Inv) (ctx : Ctx) (r : Inv)
    (hinv : ctxInvariant tr ctx) (hr : r.res.prompt = none) :
    ctxInvariant (r :: tr) ctx := by
  constructor
  · intro r0 rest0 heq p0 hp0
    injection heq with h1 h2
    subst h1
    rw [hr] at hp0
    cases hp0
  · intro r' hmem hfind p0 hp0
    by_cases hb : ((fun i : Inv => i.step == r'.step) r) = true
    · rw [List.find?_cons_of_pos (p := fun i : Inv => i.step == r'.step)
        (a := r) tr hb] at hfind
      injection hfind with hrr
      subst hrr
      rw [hr] at hp0
      cases hp0
    · rw [List.find?_cons_of_neg (p := fun i : Inv => i.step == r'.step)
        (a := r) tr hb] at hfind
      exact hinv.2 r' (List.mem_of_find?_eq_some hfind) hfind p0 hp0

/-- Recording a successful invocation and its two context updates
(`context[step] = p` then `context["prompt"] = p`) preserves the invariant,
provided no recorded step is named `"prompt"`. -/
theorem ctxInvariant_cons_some (tr : List Inv) (ctx : Ctx) (r : Inv)
    (p : String) (hinv : ctxInvariant tr ctx)
    (htr : ∀ r0 ∈ tr, r0.step ≠ "prompt")
    (hstep : r.step ≠ "prompt") (hp : r.res.prompt = some p) :
    ctxInvariant (r :: tr) (ctxSet (ctxSet ctx r.step p) "prompt" p) := by
  constructor
  · intro r0 rest0 heq p0 hp0
    injection heq with h1 h2
    subst h1
    rw [hp] at hp0
    injection hp0 with hpp
    subst hpp
    exact ctxGet_set_self _ _ _
  · intro r' hmem hfind p0 hp0
    by_cases hb : ((fun i : Inv => i.step == r'.step) r) = true
    · rw [List.find?_cons_of_pos (p := fun i : Inv => i.step == r'.step)
        (a := r) tr hb] at hfind
      injection hfind with hrr
      subst hrr
      rw [hp] at hp0
      injection hp0 with hpp
      subst hpp
      rw [ctxGet_set_ne _ _ _ _ (fun h => hstep h.symm)]
      exact ctxGet_set_self _ _ _
    · have hne : r.step ≠ r'.step := by
        intro h
        exact hb (by simp [h])
      rw [List.find?_cons_of_neg (p := fun i : Inv => i.step == r'.step)
        (a := r) tr hb] at hfind
      have hmem' : r' ∈ tr := List.mem_of_find?_eq_some hfind
      have h1 : r'.step ≠ "prompt" := htr r' hmem'
      rw [ctxGet_set_ne _ _ _ _ (fun h => h1 h.symm),
        ctxGet_set_ne _ _ _ _ hne]
      exact hinv.2 r' hmem' hfind p0 hp0

/-- The `_process_steps` loop preserves the context invariants: starting from
any state satisfying them (with no recorded step named `"prompt"`, names being
distinct from the reserved key), the state it stops in — for any fuel, i.e.
after each loop iteration — satisfies them as well. -/
theorem stepLoop_invariant (run : Oracle) (steps : List StepDef)
    (hnp : ∀ sd ∈ steps, sd.name ≠ "prompt") (fuel : Nat) :
    ∀ current ctx tr, ctxInvariant tr ctx →
      (∀ r ∈ tr, r.step ≠ "prompt") →
      ctxInvariant (stepLoop run steps fuel current ctx tr).trace
        (stepLoop run steps fuel current ctx tr).ctx ∧
      ∀ r ∈ (stepLoop run steps fuel current ctx tr).trace,
        r.step ≠ "prompt" := by
  induction fuel with
  | zero =>
    intro current ctx tr hinv htr
    exact ⟨hinv, htr⟩
  | succ fuel ih =>
    intro current ctx tr hinv htr
    cases hfind : steps.find? (fun s => s.name == current) with
    | none =>
      simp only [stepLoop, hfind]
      exact ⟨hinv, htr⟩
    | some sd =>
      have hsdmem : sd ∈ steps := List.mem_of_find?_eq_some hfind
      have hsdname : sd.name = current := by
        have := List.find?_some hfind
        simpa using this
      have hcur : current ≠ "prompt" := hsdname ▸ hnp sd hsdmem
      cases hargs : resolveArgs sd current ctx with
      | error e =>
        simp only [stepLoop, hfind, hargs]
        exact ⟨hinv, htr⟩
      | ok args =>
        cases hctxa : resolveCtxArg sd current ctx with
        | error e =>
          simp only [stepLoop, hfind, hargs, hctxa]
          exact ⟨hinv, htr⟩
        | ok ctxArg =>
          cases hp : (run tr.length current args ctxArg).prompt with
          | none =>
            simp only [stepLoop, hfind, hargs, hctxa, hp]
            refine ⟨ctxInvariant_cons_none tr ctx _ hinv hp, ?_⟩
            intro r0 h0
            rcases List.mem_cons.mp h0 with h0 | h0
            · subst h0
              exact hcur
            · exact htr r0 h0
          | some p =>
            have hinv1 : ctxInvariant
                (⟨current, args, ctxArg, run tr.length current args ctxArg⟩ :: tr)
                (ctxSet (ctxSet ctx current p) "prompt" p) :=
              ctxInvariant_cons_some tr ctx _ p hinv htr hcur hp
            have htr1 : ∀ r0 ∈
                (⟨current, args, ctxArg,
                  run tr.length current args ctxArg⟩ : Inv) :: tr,
                r0.step ≠ "prompt" := by
              intro r0 h0
              rcases List.mem_cons.mp h0 with h0 | h0
              · subst h0
                exact hcur
              · exact htr r0 h0
            cases ht : (run tr.length current args ctxArg).truthyNext with
            | some target =>
              simp only [stepLoop, hfind, hargs, hctxa, hp, ht]
              exact ih target _ _ hinv1 htr1
            | none =>
              cases hni : nextInOrder steps current with
              | error e =>
                simp only [stepLoop, hfind, hargs, hctxa, hp, ht, hni]
                exact ⟨hinv1, htr1⟩
              | ok onx =>
                cases onx with
                | none =>
                  simp only [stepLoop, hfind, hargs, hctxa, hp, ht, hni]
                  exact ⟨hinv1, htr1⟩
                | some nextName =>
                  simp only [stepLoop, hfind, hargs, hctxa, hp, ht, hni]
                  exact ih nextName _ _ hinv1 htr1

/-- In-place agent resolution does not change step names. -/
theorem resolveAgents_names_map (agents : String → Option String) :
    ∀ steps : List StepDef,
      ((resolveAgents agents steps).1).map StepDef.name =
        steps.map StepDef.name := by
  intro steps
  induction steps with
  | nil => simp [resolveAgents]
  | cons a rest ih =>
    cases hA : a.agent with
    | absent => simpa [resolveAgents, hA] using ih
    | obj o => simpa [resolveAgents, hA] using ih
    | str s =>
      cases hAg : agents s with
      | none => simp [resolveAgents, hA, hAg]
      | some o => simpa [resolveAgents, hA, hAg] using ih

/-- C7: throughout one `_process_steps` run — for every fuel bound, hence
after every loop iteration — the two context invariants hold: `context
["prompt"]` equals the most recently produced result's `"prompt"` value, and
every executed step name maps in the context to its own most recent result's
`"prompt"` value.  (The hypothesis reflects that `"prompt"` is a reserved
context key, not a legal step name.) -/
theorem c7_context_invariants
    (agents : String → Option String) (run : Oracle) (fuel : Nat)
    (steps : List StepDef) (startStep initialPrompt : String)
    (hnp : ∀ sd ∈ steps, sd.name ≠ "prompt") :
    ctxInvariant
      (processSteps agents run fuel steps startStep initialPrompt).trace
      (processSteps agents run fuel steps startStep initialPrompt).ctx := by
  unfold processSteps
  cases hra : resolveAgents agents steps with
  | mk steps1 e =>
    have hnp1 : ∀ sd ∈ steps1, sd.name ≠ "prompt" := by
      intro sd hsd
      have hmap := resolveAgents_names_map agents steps
      rw [hra] at hmap
      have : sd.name ∈ steps1.map StepDef.name := List.mem_map_of_mem _ hsd
      rw [hmap] at this
      obtain ⟨sd0, hsd0, heq⟩ := List.mem_map.mp this
      exact heq ▸ hnp sd0 hsd0
    cases e with
    | some err => exact ctxInvariant_nil _
    | none =>
      exact (stepLoop_invariant run steps1 hnp1 fuel startStep
        [("prompt", initialPrompt)] [] (ctxInvariant_nil _)
        (by intro r h; simp at h)).1

/-- Witness for `c7_context_invariants` at a concrete three-step run. -/
theorem c7_context_invariants_witness :
    ctxInvariant
      (processSteps (fun _ => none)
        (fun _ n _ _ => ⟨some ("out-" ++ n), none⟩) 3
        [plainStep "s1", plainStep "s2", plainStep "s3"] "s1" "go").trace
      (processSteps (fun _ => none)
        (fun _ n _ _ => ⟨some ("out-" ++ n), none⟩) 3
        [plainStep "s1", plainStep "s2", plainStep "s3"] "s1" "go").ctx :=
  c7_context_invariants (fun _ => none)
    (fun _ n _ _ => ⟨some ("out-" ++ n), none⟩) 3
    [plainStep "s1", plainStep "s2", plainStep "s3"] "s1" "go" (by decide)

/-- What in-place resolution leaves in a step's `agent` field: a string that
the agents map resolves becomes the resolved object, anything else is left
unchanged. -/
def resolvedField (agents : String → Option String) : AgentField → AgentField
  | .str s =>
    match agents s with
    | some a => .obj a
    | none => .str s
  | f => f

/-- When the resolution walk raises no error, the mutated list is exactly the
input list with every string `agent` field replaced through `resolvedField`,
and every string agent name in the input was present in the agents map. -/
theorem resolveAgents_ok (agents : String → Option String) :
    ∀ steps : List StepDef, (resolveAgents agents steps).2 = none →
      (resolveAgents agents steps).1 =
        steps.map (fun sd => { sd with agent := resolvedField agents sd.agent }) ∧
      ∀ sd ∈ steps, ∀ s, sd.agent = .str s → ∃ a, agents s = some a := by
  intro steps
  induction steps with
  | nil => simp [resolveAgents]
  | cons a rest ih =>
    intro h
    cases hA : a.agent with
    | str s =>
      cases hAg : agents s with
      | none =>
        simp [resolveAgents, hA, hAg] at h
      | some o =>
        simp only [resolveAgents, hA, hAg] at h ⊢
        obtain ⟨h1, h2⟩ := ih h
        constructor
        · simp only [List.map_cons, h1, resolvedField, hA, hAg]
        · intro sd hsd s2 hs2
          rcases List.mem_cons.mp hsd with hsd | hsd
          · subst hsd
            rw [hA] at hs2
            injection hs2 with hss
            subst hss
            exact ⟨o, hAg⟩
          · exact h2 sd hsd s2 hs2
    | absent =>
      simp only [resolveAgents, hA] at h ⊢
      obtain ⟨h1, h2⟩ := ih h
      constructor
      · have hfix : { a with agent := resolvedField agents a.agent } = a := by
          rw [hA]
          simp [resolvedField, ← hA]
        simp only [List.map_cons, h1, hfix]
      · intro sd hsd s2 hs2
        rcases List.mem_cons.mp hsd with hsd | hsd
        · subst hsd
          rw [hA] at hs2
          cases hs2
        · exact h2 sd hsd s2 hs2
    | obj o =>
      simp only [resolveAgents, hA] at h ⊢
      obtain ⟨h1, h2⟩ := ih h
      constructor
      · have hfix : { a with agent := resolvedField agents a.agent } = a := by
          rw [hA]
          simp [resolvedField, ← hA]
        simp only [List.map_cons, h1, hfix]
      · intro sd hsd s2 hs2
        rcases List.mem_cons.mp hsd with hsd | hsd
        · subst hsd
          rw [hA] at hs2
          cases hs2
        · exact h2 sd hsd s2 hs2

/-- The resolution walk distributes over append when the first part raises no
error (it walks the first part completely, then continues into the second). -/
theorem resolveAgents_append (agents : String → Option String) :
    ∀ pre l : List StepDef, (resolveAgents agents pre).2 = none →
      resolveAgents agents (pre ++ l) =
        ((resolveAgents agents pre).1 ++ (resolveAgents agents l).1,
          (resolveAgents agents l).2) := by
  intro pre
  induction pre with
  | nil => intro l _; simp [resolveAgents]
  | cons a rest ih =>
    intro l h
    cases hA : a.agent with
    | str s =>
      cases hAg : agents s with
      | none =>
        simp [resolveAgents, hA, hAg] at h
      | some o =>
        simp only [resolveAgents, hA, hAg] at h
        simp only [List.cons_append, resolveAgents, hA, hAg, List.append_eq,
          ih l h]
    | absent =>
      simp only [resolveAgents, hA] at h
      simp only [List.cons_append, resolveAgents, hA, List.append_eq, ih l h]
    | obj o =>
      simp only [resolveAgents, hA] at h
      simp only [List.cons_append, resolveAgents, hA, List.append_eq, ih l h]

/-- C9: `_process_steps` destructively rewrites the caller-supplied step
definitions before running anything.  First conjunct: when every string
`agent` field resolves, the step list the run leaves behind is the input list
with each such string replaced by the resolved agent object — in particular no
step of it carries a string `agent` any more, so a consumer expecting the
original agent-name strings (e.g. the Mermaid renderer) no longer finds them.
Second conjunct: when some step's `agent` string is absent from the agents
map (all steps before it resolving), the run raises a `RuntimeError` naming
that agent and that step, before any step is invoked. -/
theorem c9_agent_resolution_mutation
    (agents : String → Option String) (run : Oracle) (fuel : Nat)
    (startStep initialPrompt : String) :
    (∀ steps : List StepDef, (resolveAgents agents steps).2 = none →
      (processSteps agents run fuel steps startStep initialPrompt).steps =
        steps.map (fun sd => { sd with agent := resolvedField agents sd.agent }) ∧
      ∀ sd1 ∈ (processSteps agents run fuel steps startStep initialPrompt).steps,
        ∀ s, sd1.agent ≠ .str s) ∧
    (∀ pre sd rest s, sd.agent = .str s → agents s = none →
      (resolveAgents agents pre).2 = none →
      (processSteps agents run fuel (pre ++ sd :: rest) startStep
          initialPrompt).out = .err (.agentNotFound s sd.name) ∧
      (processSteps agents run fuel (pre ++ sd :: rest) startStep
          initialPrompt).trace = []) := by
  constructor
  · intro steps h
    obtain ⟨h1, h2⟩ := resolveAgents_ok agents steps h
    have hsteps : (processSteps agents run fuel steps startStep
        initialPrompt).steps = (resolveAgents agents steps).1 := by
      unfold processSteps
      cases hra : resolveAgents agents steps with
      | mk s1 e =>
        rw [hra] at h
        simp only at h
        subst h
        simp
    constructor
    · rw [hsteps, h1]
    · intro sd1 hsd1 s hs
      rw [hsteps, h1] at hsd1
      obtain ⟨sd0, hsd0, heq⟩ := List.mem_map.mp hsd1
      have hagent : sd1.agent = resolvedField agents sd0.agent := by
        rw [← heq]
      cases hA : sd0.agent with
      | absent =>
        rw [hA] at hagent
        rw [hs] at hagent
        simp [resolvedField] at hagent
      | obj o =>
        rw [hA] at hagent
        rw [hs] at hagent
        simp [resolvedField] at hagent
      | str s0 =>
        obtain ⟨a, ha⟩ := h2 sd0 hsd0 s0 hA
        rw [hA] at hagent
        rw [hs] at hagent
        simp [resolvedField, ha] at hagent
  · intro pre sd rest s hs hag hpre
    have herr : resolveAgents agents (sd :: rest) =
        (sd :: rest, some (.agentNotFound s sd.name)) := by
      simp only [resolveAgents, hs, hag]
    have := resolveAgents_append agents pre (sd :: rest) hpre
    rw [herr] at this
    unfold processSteps
    rw [this]
    exact ⟨rfl, rfl⟩

/-- Witness for `c9_agent_resolution_mutation`: a two-step workflow whose
first agent name resolves and a one-step workflow whose agent name does
not. -/
theorem c9_agent_resolution_mutation_witness :
    ((processSteps (fun s => if s == "a1" then some "A1" else none)
        (fun _ _ _ _ => ⟨some "p", none⟩) 2
        [⟨"s1", .str "a1", none, none⟩, plainStep "s2"] "s1" "hi").steps =
      [⟨"s1", .obj "A1", none, none⟩, plainStep "s2"] ∧
     ∀ sd1 ∈ (processSteps (fun s => if s == "a1" then some "A1" else none)
        (fun _ _ _ _ => ⟨some "p", none⟩) 2
        [⟨"s1", .str "a1", none, none⟩, plainStep "s2"] "s1" "hi").steps,
       ∀ s, sd1.agent ≠ .str s) ∧
    ((processSteps (fun s => if s == "a1" then some "A1" else none)
        (fun _ _ _ _ => ⟨some "p", none⟩) 2
        [⟨"s1", .str "a1", none, none⟩, ⟨"s2", .str "missing", none, none⟩]
        "s1" "hi").out = .err (.agentNotFound "missing" "s2") ∧
     (processSteps (fun s => if s == "a1" then some "A1" else none)
        (fun _ _ _ _ => ⟨some "p", none⟩) 2
        [⟨"s1", .str "a1", none, none⟩, ⟨"s2", .str "missing", none, none⟩]
        "s1" "hi").trace = []) := by
  constructor
  · have h := (c9_agent_resolution_mutation
      (fun s => if s == "a1" then some "A1" else none)
      (fun _ _ _ _ => ⟨some "p", none⟩) 2 "s1" "hi").1
      [⟨"s1", .str "a1", none, none⟩, plainStep "s2"] (by decide)
    exact ⟨by rw [h.1]; decide, h.2⟩
  · exact (c9_agent_resolution_mutation
      (fun s => if s == "a1" then some "A1" else none)
      (fun _ _ _ _ => ⟨some "p", none⟩) 2 "s1" "hi").2
      [⟨"s1", .str "a1", none, none⟩] ⟨"s2", .str "missing", none, none⟩ []
      "missing" rfl rfl (by decide)

/-- A key with a binding after one update either is the updated key or already
had a binding. -/
theorem ctxGet_set_isSome (ctx : Ctx) (a v k : String)
    (h : (ctxGet (ctxSet ctx a v) k).isSome) :
    k = a ∨ (ctxGet ctx k).isSome := by
  by_cases hk : a = k
  · exact Or.inl hk.symm
  · rw [ctxGet_set_ne ctx a k v hk] at h
    exact Or.inr h

/-- The `_process_steps` loop only adds trace entries (never removes them),
and every context key it binds beyond those already bound is either the
reserved key `"prompt"` or the name of a step it invoked (and recorded in the
trace). -/
theorem stepLoop_ctx_keys (run : Oracle) (steps : List StepDef) (fuel : Nat) :
    ∀ current ctx tr,
      (∃ ext, (stepLoop run steps fuel current ctx tr).trace = ext ++ tr) ∧
      ∀ k, (ctxGet (stepLoop run steps fuel current ctx tr).ctx k).isSome →
        (ctxGet ctx k).isSome ∨ k = "prompt" ∨
          ∃ r ∈ (stepLoop run steps fuel current ctx tr).trace, r.step = k := by
  induction fuel with
  | zero =>
    intro current ctx tr
    exact ⟨⟨[], rfl⟩, fun k hk => Or.inl hk⟩
  | succ fuel ih =>
    intro current ctx tr
    cases hfind : steps.find? (fun s => s.name == current) with
    | none =>
      simp only [stepLoop, hfind]
      exact ⟨⟨[], rfl⟩, fun k hk => Or.inl hk⟩
    | some sd =>
      cases hargs : resolveArgs sd current ctx with
      | error e =>
        simp only [stepLoop, hfind, hargs]
        exact ⟨⟨[], rfl⟩, fun k hk => Or.inl hk⟩
      | ok args =>
        cases hctxa : resolveCtxArg sd current ctx with
        | error e =>
          simp only [stepLoop, hfind, hargs, hctxa]
          exact ⟨⟨[], rfl⟩, fun k hk => Or.inl hk⟩
        | ok ctxArg =>
          cases hp : (run tr.length current args ctxArg).prompt with
          | none =>
            simp only [stepLoop, hfind, hargs, hctxa, hp]
            exact ⟨⟨[⟨current, args, ctxArg,
              run tr.length current args ctxArg⟩], rfl⟩,
              fun k hk => Or.inl hk⟩
          | some p =>
            have hkeys1 : ∀ k,
                (ctxGet (ctxSet (ctxSet ctx current p) "prompt" p) k).isSome →
                (ctxGet ctx k).isSome ∨ k = "prompt" ∨ k = current := by
              intro k hk
              rcases ctxGet_set_isSome _ _ _ _ hk with hk1 | hk1
              · exact Or.inr (Or.inl hk1)
              · rcases ctxGet_set_isSome _ _ _ _ hk1 with hk2 | hk2
                · exact Or.inr (Or.inr hk2)
                · exact Or.inl hk2
            have hfin : ∀ (tr2 : List Inv) (ctx2 : Ctx),
                (∃ ext, tr2 = ext ++
                  (⟨current, args, ctxArg,
                    run tr.length current args ctxArg⟩ :: tr)) →
                (∀ k, (ctxGet ctx2 k).isSome →
                  (ctxGet (ctxSet (ctxSet ctx current p) "prompt" p) k).isSome ∨
                    k = "prompt" ∨ ∃ r ∈ tr2, r.step = k) →
                (∃ ext, tr2 = ext ++ tr) ∧
                ∀ k, (ctxGet ctx2 k).isSome →
                  (ctxGet ctx k).isSome ∨ k = "prompt" ∨
                    ∃ r ∈ tr2, r.step = k := by
              intro tr2 ctx2 ⟨ext, hext⟩ hkeys
              constructor
              · exact ⟨ext ++ [⟨current, args, ctxArg,
                  run tr.length current args ctxArg⟩], by
                    rw [hext, List.append_assoc, List.singleton_append]⟩
              · intro k hk
                rcases hkeys k hk with hk1 | hk1 | hk1
                · rcases hkeys1 k hk1 with hk2 | hk2 | hk2
                  · exact Or.inl hk2
                  · exact Or.inr (Or.inl hk2)
                  · refine Or.inr (Or.inr ⟨⟨current, args, ctxArg,
                      run tr.length current args ctxArg⟩, ?_, hk2.symm⟩)
                    rw [hext]
                    exact List.mem_append_right ext (List.mem_cons_self _ _)
                · exact Or.inr (Or.inl hk1)
                · exact Or.inr (Or.inr hk1)
            cases ht : (run tr.length current args ctxArg).truthyNext with
            | some target =>
              simp only [stepLoop, hfind, hargs, hctxa, hp, ht]
              have ihx := ih target (ctxSet (ctxSet ctx current p) "prompt" p)
                (⟨current, args, ctxArg,
                  run tr.length current args ctxArg⟩ :: tr)
              exact hfin _ _ ihx.1 ihx.2
            | none =>
              cases hni : nextInOrder steps current with
              | error e =>
                simp only [stepLoop, hfind, hargs, hctxa, hp, ht, hni]
                exact hfin (⟨current, args, ctxArg,
                    run tr.length current args ctxArg⟩ :: tr)
                  (ctxSet (ctxSet ctx current p) "prompt" p) ⟨[], rfl⟩
                  (fun k hk => Or.inl hk)
              | ok onx =>
                cases onx with
                | none =>
                  simp only [stepLoop, hfind, hargs, hctxa, hp, ht, hni]
                  exact hfin (⟨current, args, ctxArg,
                      run tr.length current args ctxArg⟩ :: tr)
                    (ctxSet (ctxSet ctx current p) "prompt" p) ⟨[], rfl⟩
                    (fun k hk => Or.inl hk)
                | some nextName =>
                  simp only [stepLoop, hfind, hargs, hctxa, hp, ht, hni]
                  have ihx := ih nextName
                    (ctxSet (ctxSet ctx current p) "prompt" p)
                    (⟨current, args, ctxArg,
                      run tr.length current args ctxArg⟩ :: tr)
                  exact hfin _ _ ihx.1 ihx.2

/-- C10: every `_process_steps` invocation reinitialises the shared context,
discarding everything earlier invocations recorded.  First conjunct: before
the loop starts (zero fuel) the context is exactly `{"prompt":
initial_prompt}`.  Second conjunct: at every point of every run, the only
bound context keys are `"prompt"` and the names of steps invoked in this very
run.  Third conjunct: consequently a start step whose first declared input
names any key other than `"prompt"` — e.g. a step of a cron tick referencing a
seed-run output by name — fails with a missing-input error before any
invocation. -/
theorem c10_fresh_context
    (agents : String → Option String) (run : Oracle) (fuel : Nat)
    (steps : List StepDef) (startStep initialPrompt : String) :
    ((resolveAgents agents steps).2 = none →
      (processSteps agents run 0 steps startStep initialPrompt).ctx =
        [("prompt", initialPrompt)]) ∧
    (∀ k, (ctxGet (processSteps agents run fuel steps startStep
        initialPrompt).ctx k).isSome →
      k = "prompt" ∨ ∃ r ∈ (processSteps agents run fuel steps startStep
        initialPrompt).trace, r.step = k) ∧
    (∀ sd k rest2, (resolveAgents agents steps).2 = none →
      ((resolveAgents agents steps).1).find?
        (fun s => s.name == startStep) = some sd →
      sd.inputs = some (⟨k⟩ :: rest2) → k ≠ "prompt" →
      (processSteps agents run (fuel + 1) steps startStep initialPrompt).out =
        .err (.missingInput startStep k) ∧
      (processSteps agents run (fuel + 1) steps startStep
        initialPrompt).trace = []) := by
  have hctx0 : ∀ k, (ctxGet [("prompt", initialPrompt)] k).isSome →
      k = "prompt" := by
    intro k hk
    by_cases hpk : "prompt" = k
    · exact hpk.symm
    · rw [show ([("prompt", initialPrompt)] : Ctx) =
        ctxSet [] "prompt" initialPrompt from rfl,
        ctxGet_set_ne [] "prompt" k initialPrompt hpk] at hk
      simp [ctxGet, List.find?] at hk
  refine ⟨?_, ?_, ?_⟩
  · intro h
    unfold processSteps
    cases hra : resolveAgents agents steps with
    | mk steps1 e =>
      rw [hra] at h
      simp only at h
      subst h
      simp [stepLoop]
  · unfold processSteps
    cases hra : resolveAgents agents steps with
    | mk steps1 e =>
      cases e with
      | some err =>
        intro k hk
        exact Or.inl (hctx0 k hk)
      | none =>
        intro k hk
        rcases (stepLoop_ctx_keys run steps1 fuel startStep
            [("prompt", initialPrompt)] []).2 k hk with hk1 | hk1 | hk1
        · exact Or.inl (hctx0 k hk1)
        · exact Or.inl hk1
        · exact Or.inr hk1
  · intro sd k rest2 hok hfind hinp hkp
    have hargs : resolveArgs sd startStep [("prompt", initialPrompt)] =
        .error (.missingInput startStep k) := by
      have hget : ctxGet [("prompt", initialPrompt)] k = none := by
        cases hg : ctxGet [("prompt", initialPrompt)] k with
        | none => rfl
        | some v =>
          exact absurd (hctx0 k (by rw [hg]; rfl)) hkp
      rw [resolveArgs, hinp]
      simp only [resolveInputs, hget]
    unfold processSteps
    cases hra : resolveAgents agents steps with
    | mk steps1 e =>
      rw [hra] at hok hfind
      simp only at hok hfind
      subst hok
      simp [stepLoop, hfind, hargs]

/-- Witness for `c10_fresh_context`: a one-step workflow whose step asks for
the key `"seed"`, absent from the freshly reinitialised context. -/
theorem c10_fresh_context_witness :
    ((processSteps (fun _ => none) (fun _ _ _ _ => ⟨some "p", none⟩) 0
        [⟨"s1", .absent, some [⟨"seed"⟩], none⟩] "s1" "go").ctx =
        [("prompt", "go")]) ∧
    ("prompt" = "prompt" ∨
      ∃ r ∈ (processSteps (fun _ => none) (fun _ _ _ _ => ⟨some "p", none⟩) 1
        [⟨"s1", .absent, some [⟨"seed"⟩], none⟩] "s1" "go").trace,
        r.step = "prompt") ∧
    ((processSteps (fun _ => none) (fun _ _ _ _ => ⟨some "p", none⟩) 1
        [⟨"s1", .absent, some [⟨"seed"⟩], none⟩] "s1" "go").out =
      .err (.missingInput "s1" "seed") ∧
     (processSteps (fun _ => none) (fun _ _ _ _ => ⟨some "p", none⟩) 1
        [⟨"s1", .absent, some [⟨"seed"⟩], none⟩] "s1" "go").trace = []) := by
  have h := c10_fresh_context (fun _ => none)
    (fun _ _ _ _ => ⟨some "p", none⟩) 0
    [⟨"s1", .absent, some [⟨"seed"⟩], none⟩] "s1" "go"
  exact ⟨h.1 rfl, h.2.1 "prompt" (by decide),
    h.2.2 ⟨"s1", .absent, some [⟨"seed"⟩], none⟩ "seed" [] rfl rfl rfl
      (by decide)⟩

/-- Number of event-agent invocations recorded in an event trace. -/
def agentCalls (tr : List EvEvent) : Nat :=
  tr.countP (fun e => match e with | .agentCall _ _ => true | _ => false)

/-- Every `sleep` in an event trace (newest first) is immediately preceded —
i.e. followed in list order — by an evaluation of the exit expression that
came out false: the loop never sleeps without having just checked the exit
condition against the current prompt and found it unsatisfied. -/
def sleepsGuarded : List EvEvent → Bool
  | [] => true
  | EvEvent.sleep :: rest =>
    match rest with
    | EvEvent.exitEval _ false :: _ => sleepsGuarded rest
    | _ => false
  | EvEvent.agentCall _ _ :: rest => sleepsGuarded rest
  | EvEvent.ticked _ :: rest => sleepsGuarded rest
  | EvEvent.exitEval _ _ :: rest => sleepsGuarded rest

/-- One cron-gated tick adds at most one agent invocation, and only by
consuming the `first_run` flag: the count of agent calls plus the pending
first-run allowance never increases across a tick. -/
theorem evTick_agent_bound (cron : Nat → Bool) (agentName : Option String)
    (agentRun : String → String) (stepNames : List String)
    (agents : String → Option String) (tplSteps : List StepDef)
    (oracle : Nat → Oracle) (stepFuel : Nat) (iter : Nat) (prompt : String)
    (firstRun : Bool) (tr : List EvEvent) :
    agentCalls (evTick cron agentName agentRun stepNames agents tplSteps
        oracle stepFuel iter prompt firstRun tr).trace +
      (if (evTick cron agentName agentRun stepNames agents tplSteps
        oracle stepFuel iter prompt firstRun tr).firstRun then 1 else 0) ≤
      agentCalls tr + (if firstRun then 1 else 0) := by
  by_cases hc : cron iter = true
  · by_cases hA : (firstRun && truthyOptStr agentName) = true
    · obtain ⟨hfr, htru⟩ : firstRun = true ∧ truthyOptStr agentName = true := by
        simpa using hA
      simp only [evTick, hc, hA, if_true, hfr, htru]
      cases stepNames with
      | nil =>
        simp [agentCalls, List.countP_cons]
      | cons n0 ns =>
        cases hg : getEventSteps tplSteps (n0 :: ns) with
        | error e =>
          simp [hg, agentCalls, List.countP_cons]
        | ok evSteps =>
          cases ho : (processSteps agents (oracle iter) stepFuel evSteps n0
              (agentRun prompt)).out with
          | done => simp [hg, ho, agentCalls, List.countP_cons]
          | err e => simp [hg, ho, agentCalls, List.countP_cons]
          | fuelOut => simp [hg, ho, agentCalls, List.countP_cons]
    · have hA2 : (firstRun && truthyOptStr agentName) = false := by
        simpa using hA
      simp only [evTick, hc, hA2, if_true, Bool.false_eq_true, if_false]
      cases stepNames with
      | nil =>
        simp
      | cons n0 ns =>
        cases hg : getEventSteps tplSteps (n0 :: ns) with
        | error e =>
          simp [hg]
        | ok evSteps =>
          cases ho : (processSteps agents (oracle iter) stepFuel evSteps n0
              prompt).out with
          | done => simp [hg, ho, agentCalls, List.countP_cons]
          | err e => simp [hg, ho]
          | fuelOut => simp [hg, ho]
  · have hc2 : cron iter = false := by simpa using hc
    simp [evTick, hc2]

/-- Across a whole `process_event` run the designated event agent is invoked
at most once more than the incoming trace records, and only while `first_run`
is still set. -/
theorem processEvent_agent_bound (cron : Nat → Bool)
    (exitExpr : String → Bool) (agentName : Option String)
    (agentRun : String → String) (stepNames : List String)
    (agents : String → Option String) (tplSteps : List StepDef)
    (oracle : Nat → Oracle) (stepFuel : Nat) (fuel : Nat) :
    ∀ prompt firstRun iter tr,
      agentCalls (processEvent cron exitExpr agentName agentRun stepNames
        agents tplSteps oracle stepFuel fuel prompt firstRun iter tr).trace ≤
      agentCalls tr + (if firstRun then 1 else 0) := by
  induction fuel with
  | zero =>
    intro prompt firstRun iter tr
    exact Nat.le_add_right _ _
  | succ fuel ih =>
    intro prompt firstRun iter tr
    have hb := evTick_agent_bound cron agentName agentRun stepNames agents
      tplSteps oracle stepFuel iter prompt firstRun tr
    cases hout : (evTick cron agentName agentRun stepNames agents tplSteps
        oracle stepFuel iter prompt firstRun tr).out with
    | fail e =>
      simp only [processEvent, hout]
      exact le_trans (Nat.le_add_right _ _) hb
    | fuelOut =>
      simp only [processEvent, hout]
      exact le_trans (Nat.le_add_right _ _) hb
    | ok p =>
      by_cases he : exitExpr p = true
      · simp only [processEvent, hout, he, if_true]
        refine le_trans ?_ hb
        simp only [agentCalls, List.countP_cons]
        exact Nat.le_add_right _ _
      · have he2 : exitExpr p = false := by simpa using he
        simp only [processEvent, hout, he2, Bool.false_eq_true, if_false]
        refine le_trans (ih p _ (iter + 1) _) (le_trans ?_ hb)
        have : agentCalls (EvEvent.sleep :: EvEvent.exitEval p false ::
            (evTick cron agentName agentRun stepNames agents tplSteps
              oracle stepFuel iter prompt firstRun tr).trace) =
            agentCalls (evTick cron agentName agentRun stepNames agents
              tplSteps oracle stepFuel iter prompt firstRun tr).trace := by
          simp [agentCalls, List.countP_cons]
        rw [this]

/-- One cron-gated tick preserves sleep-guardedness (it records no `sleep`
events of its own). -/
theorem evTick_sleeps (cron : Nat → Bool) (agentName : Option String)
    (agentRun : String → String) (stepNames : List String)
    (agents : String → Option String) (tplSteps : List StepDef)
    (oracle : Nat → Oracle) (stepFuel : Nat) (iter : Nat) (prompt : String)
    (firstRun : Bool) (tr : List EvEvent)
    (h : sleepsGuarded tr = true) :
    sleepsGuarded (evTick cron agentName agentRun stepNames agents tplSteps
      oracle stepFuel iter prompt firstRun tr).trace = true := by
  by_cases hc : cron iter = true
  · by_cases hA : (firstRun && truthyOptStr agentName) = true
    · obtain ⟨hfr, htru⟩ : firstRun = true ∧ truthyOptStr agentName = true := by
        simpa using hA
      simp only [evTick, hc, hA, if_true, hfr, htru]
      cases stepNames with
      | nil => simpa [sleepsGuarded] using h
      | cons n0 ns =>
        cases hg : getEventSteps tplSteps (n0 :: ns) with
        | error e => simpa [hg, sleepsGuarded] using h
        | ok evSteps =>
          cases ho : (processSteps agents (oracle iter) stepFuel evSteps n0
              (agentRun prompt)).out with
          | done => simpa [hg, ho, sleepsGuarded] using h
          | err e => simpa [hg, ho, sleepsGuarded] using h
          | fuelOut => simpa [hg, ho, sleepsGuarded] using h
    · have hA2 : (firstRun && truthyOptStr agentName) = false := by
        simpa using hA
      simp only [evTick, hc, hA2, if_true, Bool.false_eq_true, if_false]
      cases stepNames with
      | nil => exact h
      | cons n0 ns =>
        cases hg : getEventSteps tplSteps (n0 :: ns) with
        | error e => simpa [hg] using h
        | ok evSteps =>
          cases ho : (processSteps agents (oracle iter) stepFuel evSteps n0
              prompt).out with
          | done => simpa [hg, ho, sleepsGuarded] using h
          | err e => simpa [hg, ho] using h
          | fuelOut => simpa [hg, ho] using h
  · have hc2 : cron iter = false := by simpa using hc
    simpa [evTick, hc2] using h

/-- A whole `process_event` run preserves sleep-guardedness: every `sleep` it
records is immediately preceded by a false evaluation of the exit
expression. -/
theorem processEvent_sleeps (cron : Nat → Bool) (exitExpr : String → Bool)
    (agentName : Option String) (agentRun : String → String)
    (stepNames : List String) (agents : String → Option String)
    (tplSteps : List StepDef) (oracle : Nat → Oracle) (stepFuel : Nat)
    (fuel : Nat) :
    ∀ prompt firstRun iter tr, sleepsGuarded tr = true →
      sleepsGuarded (processEvent cron exitExpr agentName agentRun stepNames
        agents tplSteps oracle stepFuel fuel prompt firstRun iter tr).trace =
        true := by
  induction fuel with
  | zero =>
    intro prompt firstRun iter tr h
    exact h
  | succ fuel ih =>
    intro prompt firstRun iter tr h
    have hg := evTick_sleeps cron agentName agentRun stepNames agents
      tplSteps oracle stepFuel iter prompt firstRun tr h
    cases hout : (evTick cron agentName agentRun stepNames agents tplSteps
        oracle stepFuel iter prompt firstRun tr).out with
    | fail e =>
      simp only [processEvent, hout]
      exact hg
    | fuelOut =>
      simp only [processEvent, hout]
      exact hg
    | ok p =>
      by_cases he : exitExpr p = true
      · simp only [processEvent, hout, he, if_true]
        simpa [sleepsGuarded] using hg
      · have he2 : exitExpr p = false := by simpa using he
        simp only [processEvent, hout, he2, Bool.false_eq_true, if_false]
        refine ih p _ (iter + 1) _ ?_
        simpa [sleepsGuarded] using hg

/-- When `process_event` returns a prompt, the exit expression held of it and
the last recorded event is that successful exit evaluation — in particular no
`sleep` follows it. -/
theorem processEvent_done_head (cron : Nat → Bool) (exitExpr : String → Bool)
    (agentName : Option String) (agentRun : String → String)
    (stepNames : List String) (agents : String → Option String)
    (tplSteps : List StepDef) (oracle : Nat → Oracle) (stepFuel : Nat)
    (fuel : Nat) :
    ∀ prompt firstRun iter tr q,
      (processEvent cron exitExpr agentName agentRun stepNames agents
        tplSteps oracle stepFuel fuel prompt firstRun iter tr).out =
        .done q →
      exitExpr q = true ∧ ∃ rest,
        (processEvent cron exitExpr agentName agentRun stepNames agents
          tplSteps oracle stepFuel fuel prompt firstRun iter tr).trace =
          EvEvent.exitEval q true :: rest := by
  induction fuel with
  | zero =>
    intro prompt firstRun iter tr q h
    simp [processEvent] at h
  | succ fuel ih =>
    intro prompt firstRun iter tr q h
    cases hout : (evTick cron agentName agentRun stepNames agents tplSteps
        oracle stepFuel iter prompt firstRun tr).out with
    | fail e =>
      rw [processEvent] at h
      simp only [hout] at h
      cases h
    | fuelOut =>
      rw [processEvent] at h
      simp only [hout] at h
      cases h
    | ok p =>
      by_cases he : exitExpr p = true
      · rw [processEvent] at h
        simp only [hout, he, if_true] at h
        injection h with hq
        subst hq
        refine ⟨he, ?_⟩
        rw [processEvent]
        simp only [hout, he, if_true]
        exact ⟨_, rfl⟩
      · have he2 : exitExpr p = false := by simpa using he
        rw [processEvent] at h
        simp only [hout, he2, Bool.false_eq_true, if_false] at h
        have := ih p _ (iter + 1) _ q h
        rw [processEvent]
        simp only [hout, he2, Bool.false_eq_true, if_false]
        exact this

/-- C8: in every `process_event` run started with `first_run` set — (1) the
designated event agent is invoked at most once; (2) every recorded `sleep` is
immediately preceded by an evaluation of the exit expression against the
current prompt that came out false, so the exit expression is checked before
every sleep; (3) whenever the loop returns a prompt, the exit expression held
of it and the successful exit evaluation is the last recorded event — no
further sleep; and (4), concretely, a cron that matches immediately with
`steps: ["s1"]` whose first tick produces `"DONE"` under exit expression
`prompt == "DONE"` returns `"DONE"` after exactly one tick with no agent call
and no sleep. -/
theorem c8_event_loop (cron : Nat → Bool) (exitExpr : String → Bool)
    (agentName : Option String) (agentRun : String → String)
    (stepNames : List String) (agents : String → Option String)
    (tplSteps : List StepDef) (oracle : Nat → Oracle) (stepFuel : Nat) :
    (∀ fuel prompt,
      agentCalls (processEvent cron exitExpr agentName agentRun stepNames
        agents tplSteps oracle stepFuel fuel prompt true 0 []).trace ≤ 1) ∧
    (∀ fuel prompt,
      sleepsGuarded (processEvent cron exitExpr agentName agentRun stepNames
        agents tplSteps oracle stepFuel fuel prompt true 0 []).trace =
        true) ∧
    (∀ fuel prompt firstRun iter tr q,
      (processEvent cron exitExpr agentName agentRun stepNames agents
        tplSteps oracle stepFuel fuel prompt firstRun iter tr).out =
        .done q →
      exitExpr q = true ∧ ∃ rest,
        (processEvent cron exitExpr agentName agentRun stepNames agents
          tplSteps oracle stepFuel fuel prompt firstRun iter tr).trace =
          EvEvent.exitEval q true :: rest) ∧
    processEvent (fun _ => true) (fun s => s == "DONE") none (fun p => p)
        ["s1"] (fun _ => none) [plainStep "s1"]
        (fun _ => fun _ _ _ _ => ⟨some "DONE", none⟩) 1 1 "go" true 0 [] =
      ⟨[.exitEval "DONE" true, .ticked "DONE"], .done "DONE"⟩ := by
  refine ⟨?_, ?_, ?_, ?_⟩
  · intro fuel prompt
    have := processEvent_agent_bound cron exitExpr agentName agentRun
      stepNames agents tplSteps oracle stepFuel fuel prompt true 0 []
    simpa [agentCalls] using this
  · intro fuel prompt
    exact processEvent_sleeps cron exitExpr agentName agentRun stepNames
      agents tplSteps oracle stepFuel fuel prompt true 0 [] rfl
  · intro fuel prompt firstRun iter tr q h
    exact processEvent_done_head cron exitExpr agentName agentRun stepNames
      agents tplSteps oracle stepFuel fuel prompt firstRun iter tr q h
  · rfl

/-- Witness for `c8_event_loop`: its third conjunct applied to the concrete
scenario of the fourth conjunct. -/
theorem c8_event_loop_witness :
    ((fun s => s == "DONE") "DONE") = true ∧ ∃ rest,
      (processEvent (fun _ => true) (fun s => s == "DONE") none (fun p => p)
        ["s1"] (fun _ => none) [plainStep "s1"]
        (fun _ => fun _ _ _ _ => ⟨some "DONE", none⟩) 1 1 "go" true 0
        []).trace = EvEvent.exitEval "DONE" true :: rest :=
  (c8_event_loop (fun _ => true) (fun s => s == "DONE") none (fun p => p)
    ["s1"] (fun _ => none) [plainStep "s1"]
    (fun _ => fun _ _ _ _ => ⟨some "DONE", none⟩) 1).2.2.1
    1 "go" true 0 [] "DONE" rfl

end Maestro
